import Mathlib

/-!
Verification of the echo-templates template-resolution core against its Go
source (parser, substitution, recursive import expansion, LRU cache, engine
facade).  Go strings are embedded as lists of characters; Go maps as
association lists with first-match lookup; the scanners that the Go code
drives with regular expressions or index arithmetic are embedded as
fuel-indexed structural recursions (the wrappers always supply sufficient
fuel, namely input length plus one, so the fuel branch is unreachable and
every function evaluates by kernel reduction).
-/

set_option maxRecDepth 20000

namespace EchoTpl

/-- Go string, embedded as a list of characters. -/
abbrev Str := List Char

/-- Convert a Lean string literal to the embedded representation. -/
def str (s : String) : Str := s.data

/-- Lookup in a Go map embedded as an association list (first match wins). -/
def lookupA {β : Type} : List (Str × β) → Str → Option β
  | [], _ => none
  | (k, v) :: r, key => if k = key then some v else lookupA r key

/-- Remove the first binding of a key (Go map delete on unique-key maps). -/
def eraseKey {β : Type} : List (Str × β) → Str → List (Str × β)
  | [], _ => []
  | (k, v) :: r, key => if k = key then r else (k, v) :: eraseKey r key

/-- Insert or overwrite a binding (Go map assignment on unique-key maps). -/
def insertA {β : Type} : List (Str × β) → Str → β → List (Str × β)
  | [], key, nv => [(key, nv)]
  | (k, v) :: r, key, nv => if k = key then (key, nv) :: r else (k, v) :: insertA r key nv

/-- ASCII subset of Go unicode.IsSpace, the characters TrimSpace strips.
Non-ASCII white space never occurs in the inputs the claims exercise. -/
def isSpaceGo (c : Char) : Bool :=
  c = ' ' || c = '\t' || c = '\n' || c = '\x0b' || c = '\x0c' || c = '\r'

/-- Go strings.TrimSpace, left side. -/
def trimLeftGo (s : Str) : Str := s.dropWhile isSpaceGo

/-- Go strings.TrimSpace, right side. -/
def trimRightGo (s : Str) : Str := (s.reverse.dropWhile isSpaceGo).reverse

/-- Go strings.TrimSpace. -/
def trimSpaceGo (s : Str) : Str := trimRightGo (trimLeftGo s)

/-- Go strings.SplitN(s, sep, 2) for a one-character separator: the part
before the first separator, and optionally the part after it. -/
def breakOnChar (sep : Char) : Str → Str × Option Str
  | [] => ([], none)
  | c :: r =>
    if c = sep then ([], some r)
    else
      let p := breakOnChar sep r
      (c :: p.1, p.2)

/-- Go strings.Join with a separator. -/
def joinWith (sep : Str) : List Str → Str
  | [] => []
  | [s] => s
  | s :: r => s ++ sep ++ joinWith sep r

/-- Go filepath.Base for the slash-clean, non-slash-terminated paths the
engine produces: the last path component. -/
def baseName (p : Str) : Str := (p.reverse.takeWhile (fun c => c ≠ '/')).reverse

/-- Go filepath.Join for a slash-clean root and a slash-clean relative path
(the only shapes the engine produces): concatenation with one slash. -/
def joinPath (root p : Str) : Str := root ++ '/' :: p

/-- Go strings.TrimRight(s, newline): strip trailing newline characters. -/
def trimRightNL (s : Str) : Str := (s.reverse.dropWhile (fun c => c = '\n')).reverse

/-- Go bufio ScanLines drops one carriage return before the newline. -/
def dropCR (s : Str) : Str :=
  match s.reverse with
  | c :: r => if c = '\r' then r.reverse else s
  | [] => s

/-- Worker of the line splitter: accumulate the current line in reverse;
a newline emits the accumulated line (carriage return dropped); the end of
the input emits the final unterminated line, and input ending directly
after a newline emits no further token. -/
def splitLinesAux (acc : Str) : Str → List Str
  | [] => [dropCR acc.reverse]
  | c :: r =>
    if c = '\n' then
      dropCR acc.reverse ::
        (match r with
         | [] => []
         | _ :: _ => splitLinesAux [] r)
    else splitLinesAux (c :: acc) r

/-- Split into lines the way bufio.Scanner with ScanLines does: tokens are
the runs between newlines, each with a trailing carriage return dropped;
a trailing newline produces no final empty token, and empty input produces
no token. -/
def splitLinesGo (s : Str) : List Str :=
  match s with
  | [] => []
  | _ => splitLinesAux [] s

/-- Go strings.ReplaceAll, fuel-indexed.  The empty-pattern case of Go
(inserting around every rune) is never reached here: every pattern the
engine builds starts with two braces. -/
def replaceAllF (pat rep : Str) : Nat → Str → Str
  | 0, cs => cs
  | f + 1, cs =>
    match cs with
    | [] => []
    | c :: cs2 =>
      if pat ≠ [] ∧ pat.isPrefixOf cs then rep ++ replaceAllF pat rep f (cs.drop pat.length)
      else c :: replaceAllF pat rep f cs2

/-- Go strings.ReplaceAll wrapper with sufficient fuel. -/
def replaceAll (s pat rep : Str) : Str := replaceAllF pat rep (s.length + 1) s

/-! ## Data model (engine.go, errors.go, the parser file) -/

/-- Value stored in the template metadata map (Go map from string to any).
Go classifies scalar front-matter values into int, float64 or string via
strconv.ParseFloat; no claim observes a scalar metadata value, so scalars
keep the raw value text.  The reserved defaults key holds a Go map from
string to string, embedded as an association list. -/
inductive GoVal where
  | scalar (s : Str)
  | strMap (m : List (Str × Str))
deriving DecidableEq, Repr

/-- Template metadata map (Go map from string to any). -/
abbrev Metadata := List (Str × GoVal)

/-- Call-time variable map (Go map from string to string). -/
abbrev VarMap := List (Str × Str)

/-- GenerateOptions of engine.go. -/
structure GenerateOptions where
  allowMissingVars : Bool
  strictMode : Bool
  disableCache : Bool
deriving DecidableEq, Repr

/-- parsedTemplate of the parser file: metadata, body, extracted imports. -/
structure parsedTemplate where
  metadata : Metadata
  content : Str
  imports : List Str
deriving DecidableEq, Repr

/-- VariableError of errors.go. -/
structure VariableError where
  Variable : Str
  Template : Str
deriving DecidableEq, Repr

/-- TemplateNotFoundError of errors.go (the only load failure reachable in
the embedding: a missing store entry; I/O failures of os.Open and non
NotExist failures of os.Stat have no counterpart over a pure store). -/
structure TemplateNotFoundError where
  Name : Str
  Path : Str
deriving DecidableEq, Repr

/-- Cause of an ImportError: the circular-import sentinel built with
fmt.Errorf, or a wrapped load failure.  The fuelOut constructor is an
artifact of the fuel-indexed embedding of the recursive import walk; the
termination theorem for claim C9 proves it unreachable. -/
inductive ImpCause where
  | circular
  | load (e : TemplateNotFoundError)
  | fuelOut
deriving DecidableEq, Repr

/-- ImportError of errors.go. -/
structure ImportError where
  ImportPath : Str
  Template : Str
  Cause : ImpCause
deriving DecidableEq, Repr

/-! ## Variable substitution (substituteVariables and its two regexes)

The Go code drives two regular expressions over the content with
ReplaceAllStringFunc: first the raw pattern, three opening braces, one or
more non-closing-brace characters, three closing braces; then the plain
pattern, two opening braces, one or more non-closing-brace characters, two
closing braces.  Both scanners below reproduce leftmost matching: at each
position they try to match, and on failure advance one character; on a
match they emit the replacement and continue after the match, never
rescanning the replacement within the same pass. -/

/-- Match of the plain placeholder regex at the head of the input: two
opening braces, a maximal nonempty run of non-closing-brace characters,
two closing braces.  Returns the inner run and the rest after the match. -/
def plainMatchHead : Str → Option (Str × Str)
  | a :: b :: t =>
    if a = '\x7b' ∧ b = '\x7b' then
      let run := t.takeWhile (fun c => c ≠ '\x7d')
      match run, t.dropWhile (fun c => c ≠ '\x7d') with
      | [], _ => none
      | _, d :: e :: r => if d = '\x7d' ∧ e = '\x7d' then some (run, r) else none
      | _, _ => none
    else none
  | _ => none

/-- Match of the raw placeholder regex at the head of the input: three
opening braces, a maximal nonempty run of non-closing-brace characters,
three closing braces. -/
def rawMatchHead : Str → Option (Str × Str)
  | a :: b :: c :: t =>
    if a = '\x7b' ∧ b = '\x7b' ∧ c = '\x7b' then
      let run := t.takeWhile (fun x => x ≠ '\x7d')
      match run, t.dropWhile (fun x => x ≠ '\x7d') with
      | [], _ => none
      | _, d :: e :: f :: r => if d = '\x7d' ∧ e = '\x7d' ∧ f = '\x7d' then some (run, r) else none
      | _, _ => none
    else none
  | _ => none

/-- Raw placeholder pass of substituteVariables: the matched name is
trimmed and looked up in the variable map; an unknown name keeps the
original placeholder text. -/
def rawSubF (vars : VarMap) : Nat → Str → Str
  | 0, cs => cs
  | f + 1, cs =>
    match rawMatchHead cs with
    | some (run, rest) =>
      (match lookupA vars (trimSpaceGo run) with
       | some v => v
       | none => str "\x7b\x7b\x7b" ++ run ++ str "\x7d\x7d\x7d") ++ rawSubF vars f rest
    | none =>
      match cs with
      | [] => []
      | c :: cs2 => c :: rawSubF vars f cs2

/-- Plain placeholder pass of substituteVariables.  Import placeholders
(matches whose inner text starts with the at sign) are kept verbatim; the
inner text is split at the first pipe into a variable name and an inline
literal fallback; resolution tries the variable map, then a nonempty
fallback, and otherwise keeps the placeholder, recording the name as
missing when missing variables are disallowed.  Returns the rewritten
text and the missing names in scan order. -/
def plainSubF (vars : VarMap) (allowMissing : Bool) : Nat → Str → Str × List Str
  | 0, cs => (cs, [])
  | f + 1, cs =>
    match plainMatchHead cs with
    | some (run, rest) =>
      let m := str "\x7b\x7b" ++ run ++ str "\x7d\x7d"
      if run.head? = some '@' then
        let r := plainSubF vars allowMissing f rest
        (m ++ r.1, r.2)
      else
        let inner := trimSpaceGo run
        let p := breakOnChar '|' inner
        let varName := trimSpaceGo p.1
        let defaultValue := match p.2 with
          | some d => trimSpaceGo d
          | none => []
        match lookupA vars varName with
        | some v =>
          let r := plainSubF vars allowMissing f rest
          (v ++ r.1, r.2)
        | none =>
          if defaultValue ≠ [] then
            let r := plainSubF vars allowMissing f rest
            (defaultValue ++ r.1, r.2)
          else if allowMissing then
            let r := plainSubF vars allowMissing f rest
            (m ++ r.1, r.2)
          else
            let r := plainSubF vars allowMissing f rest
            (m ++ r.1, varName :: r.2)
    | none =>
      match cs with
      | [] => ([], [])
      | c :: cs2 =>
        let r := plainSubF vars allowMissing f cs2
        (c :: r.1, r.2)

/-- substituteVariables of the parser file.  Mirrors the Go signature: the
rewritten content together with an optional VariableError; on error the
content result is empty, exactly as the Go function returns the empty
string next to the error.  The defaults parameter is accepted and, as in
the source, never read. -/
def substituteVariables (content : Str) (vars : VarMap) (defaults : List (Str × Str))
    (opts : GenerateOptions) : Str × Option VariableError :=
  let c1 := rawSubF vars (content.length + 1) content
  let r := plainSubF vars opts.allowMissingVars (c1.length + 1) c1
  if r.2.length > 0 ∧ opts.allowMissingVars = false then
    ([], some ⟨joinWith (str ", ") r.2, str "current"⟩)
  else
    (r.1, none)

/-! ## Import extraction (extractImports) -/

/-- Inner loop of extractImports: balanced scanning after an import sigil,
counting nested double-brace pairs exactly as the index walk in the Go
code does.  Returns the import path span (without the closing braces) and
the rest of the input, or none when the input ends before balance. -/
def scanBalancedF : Nat → Nat → Str → Str → Option (Str × Str)
  | 0, _, _, _ => none
  | _ + 1, _, _, [] => none
  | f + 1, depth, acc, c1 :: c2 :: rest =>
    if c1 = '\x7b' ∧ c2 = '\x7b' then scanBalancedF f (depth + 1) (acc ++ [c1, c2]) rest
    else if c1 = '\x7d' ∧ c2 = '\x7d' then
      if depth = 1 then some (acc, rest)
      else scanBalancedF f (depth - 1) (acc ++ [c1, c2]) rest
    else scanBalancedF f depth (acc ++ [c1]) (c2 :: rest)
  | f + 1, depth, acc, [c] => scanBalancedF f depth (acc ++ [c]) []

/-- Leftmost occurrence of the import sigil (two opening braces and an at
sign): the input after the sigil, or none. -/
def afterImportSigil : Str → Option Str
  | '\x7b' :: '\x7b' :: '@' :: rest => some rest
  | _ :: cs => afterImportSigil cs
  | [] => none

/-- Outer loop of extractImports: repeatedly find the next import sigil,
scan its balanced span, record the trimmed path, and continue after the
span; when the balance scan exhausts the input, scanning stops. -/
def extractImportsF : Nat → Str → List Str
  | 0, _ => []
  | f + 1, cs =>
    match afterImportSigil cs with
    | none => []
    | some t =>
      match scanBalancedF (t.length + 1) 1 [] t with
      | none => []
      | some (span, rest) => trimSpaceGo span :: extractImportsF f rest

/-- extractImports of the parser file. -/
def extractImports (content : Str) : List Str := extractImportsF (content.length + 1) content

/-- Dynamic import path resolution inside processImportsRecursive: the
plain placeholder regex over the import path, each match replaced by the
call-time value of its trimmed inner text when present and kept verbatim
otherwise (no pipe splitting, no at-sign skipping: the Go closure here
differs from the substitution closure). -/
def resolveDynamicPathF (vars : VarMap) : Nat → Str → Str
  | 0, cs => cs
  | f + 1, cs =>
    match plainMatchHead cs with
    | some (run, rest) =>
      (match lookupA vars (trimSpaceGo run) with
       | some v => v
       | none => str "\x7b\x7b" ++ run ++ str "\x7d\x7d") ++ resolveDynamicPathF vars f rest
    | none =>
      match cs with
      | [] => []
      | c :: cs2 => c :: resolveDynamicPathF vars f cs2

/-- Wrapper with sufficient fuel. -/
def resolveDynamicPath (vars : VarMap) (p : Str) : Str :=
  resolveDynamicPathF vars (p.length + 1) p

/-! ## Front-matter parsing (parseFrontMatter) -/

/-- Loop state of parseFrontMatter: whether still inside the front-matter
block, the defaults map, the scalar metadata bindings, and the content
builder. -/
structure FMState where
  inFM : Bool
  defaults : List (Str × Str)
  meta : Metadata
  builder : Str
deriving DecidableEq, Repr

/-- One line of the parseFrontMatter loop.  While in front matter, a line
with the hash-space prefix and a colon is a key-value entry: keys with the
default-dot prefix go to the defaults map, every other key stores its
classified scalar value; such a line without a colon is consumed silently.
Any other line ends the front matter and is appended to the content
builder, with a newline separator only when the builder is nonempty. -/
def fmStep (st : FMState) (line : Str) : FMState :=
  if st.inFM ∧ (str "# ").isPrefixOf line then
    match breakOnChar ':' (line.drop 2) with
    | (_, none) => st
    | (k0, some v0) =>
      let key := trimSpaceGo k0
      let value := trimSpaceGo v0
      if (str "default.").isPrefixOf key then
        { st with defaults := insertA st.defaults (key.drop 8) value }
      else
        { st with meta := insertA st.meta key (GoVal.scalar value) }
  else
    { st with
      inFM := false
      builder := if st.builder ≠ [] then st.builder ++ '\n' :: line else st.builder ++ line }

/-- parseFrontMatter of the parser file.  The Go function seeds the
metadata map with a binding of the defaults key to the (mutable) defaults
map; a scalar front-matter line whose key is literally the word defaults
replaces that binding, after which the map object is no longer reachable
through the metadata -- the assembly below reproduces that aliasing.  The
Go error return only reports scanner I/O failures, which have no
counterpart over an in-memory text, so the embedding is total. -/
def parseFrontMatter (text : Str) : Metadata × Str :=
  let st := (splitLinesGo text).foldl fmStep ⟨true, [], [], []⟩
  let md : Metadata :=
    match lookupA st.meta (str "defaults") with
    | some _ => st.meta
    | none => (str "defaults", GoVal.strMap st.defaults) :: st.meta
  (md, trimRightNL st.builder)

/-- Parse a file text into a parsedTemplate, as loadTemplate does after
opening the file: front matter, body, extracted imports. -/
def parseToTemplate (text : Str) : parsedTemplate :=
  let (md, content) := parseFrontMatter text
  ⟨md, content, extractImports content⟩

/-! ## LRU cache with modification-time invalidation (the cache file) -/

/-- cacheEntry of the cache file.  Modification times are embedded as
integers; lastChecked is written from time.Now and never read. -/
structure cacheEntry where
  template : parsedTemplate
  modTime : Int
  lastChecked : Int
deriving DecidableEq, Repr

/-- templateCache of the cache file.  The Go struct keeps a map of keys to
linked-list elements next to a doubly linked recency list; both are
embedded as one association list in most-recently-used-first order.  The
checkFreq field is set by the constructor and never read. -/
structure templateCache where
  items : List (Str × cacheEntry)
  maxSize : Nat
  checkFreq : Int
deriving DecidableEq, Repr

/-- newTemplateCache: a nonpositive size falls back to 100. -/
def newTemplateCache (maxSize : Int) : templateCache :=
  ⟨[], if maxSize ≤ 0 then 100 else maxSize.toNat, 5⟩

/-- get of the cache file: a present key whose recorded modification time
is strictly older than the probe time is evicted and reported as a miss;
otherwise the entry moves to the front (most recently used), its
lastChecked is refreshed, and the call is a hit. -/
def templateCache.get (c : templateCache) (key : Str) (fileModTime now : Int) :
    Option parsedTemplate × templateCache :=
  match lookupA c.items key with
  | none => (none, c)
  | some e =>
    if fileModTime > e.modTime then
      (none, { c with items := eraseKey c.items key })
    else
      (some e.template,
       { c with items := (key, { e with lastChecked := now }) :: eraseKey c.items key })

/-- put of the cache file: an existing key is overwritten in place and
moved to the front; a new key is pushed to the front and, when the size
then exceeds capacity, the back (least recently used) entry is evicted. -/
def templateCache.put (c : templateCache) (key : Str) (tpl : parsedTemplate)
    (modTime now : Int) : templateCache :=
  match lookupA c.items key with
  | some _ =>
    { c with items := (key, ⟨tpl, modTime, now⟩) :: eraseKey c.items key }
  | none =>
    let items1 := (key, (⟨tpl, modTime, now⟩ : cacheEntry)) :: c.items
    if items1.length > c.maxSize then { c with items := items1.dropLast }
    else { c with items := items1 }

/-- clear of the cache file. -/
def templateCache.clear (c : templateCache) : templateCache := { c with items := [] }

/-! ## Engine (engine.go) -/

/-- Config of engine.go (the RootDir-based configuration). -/
structure Config where
  rootDir : Str
  defaultOptions : GenerateOptions
  enableCache : Bool
  cacheSize : Int
deriving DecidableEq, Repr

/-- templateEngine of engine.go. -/
structure templateEngine where
  config : Config
  cache : Option templateCache
deriving DecidableEq, Repr

/-- New of engine.go.  The filesystem probe of the root directory is
embedded as an oracle argument: none when os.Stat fails, otherwise whether
the path is a directory.  A zero cache size defaults to 100, and a false
EnableCache is overwritten to true before the cache is created. -/
def New (config : Config) (rootStat : Option Bool) : Except Str templateEngine :=
  if config.rootDir = [] then .error (str "RootDir is required")
  else
    match rootStat with
    | none => .error (str "failed to access RootDir")
    | some false => .error (str "RootDir is not a directory")
    | some true =>
      let c1 := if config.cacheSize = 0 then { config with cacheSize := 100 } else config
      let c2 := if c1.enableCache = false then { c1 with enableCache := true } else c1
      .ok ⟨c2, if c2.enableCache then some (newTemplateCache c2.cacheSize) else none⟩

/-- A stored template file: modification time and raw text.  The engine
reads the filesystem only through os.Stat and os.Open of full paths, so
the filesystem is embedded as an association list keyed by full path. -/
structure StoreFile where
  modTime : Int
  text : Str
deriving DecidableEq, Repr

/-- The filesystem visible to the engine. -/
abbrev Store := List (Str × StoreFile)

/-- loadTemplate of engine.go over a store: a missing path is the NotFound
error; with a cache present and not bypassed, a fresh cache hit returns
the cached template, and a miss parses the file and caches the result.
The wall-clock instants written into the unread lastChecked field are
fixed to zero. -/
def loadTemplate (store : Store) (cache : Option templateCache) (path : Str)
    (opts : GenerateOptions) : Except TemplateNotFoundError parsedTemplate × Option templateCache :=
  match lookupA store path with
  | none => (.error ⟨baseName path, path⟩, cache)
  | some file =>
    match cache with
    | some c =>
      if opts.disableCache = false then
        match c.get path file.modTime 0 with
        | (some tpl, c1) => (.ok tpl, some c1)
        | (none, c1) =>
          let tpl := parseToTemplate file.text
          (.ok tpl, some (c1.put path tpl file.modTime 0))
      else (.ok (parseToTemplate file.text), some c)
    | none => (.ok (parseToTemplate file.text), none)

/-- Result of the recursive import walk: the rewritten content together
with the visited set and cache it threads, an ImportError, or fuel
exhaustion (proved unreachable for the fuel processImports supplies). -/
inductive ImpResult where
  | ok (content : Str) (processed : List Str) (cache : Option templateCache)
  | err (e : ImportError)
  | noFuel
deriving DecidableEq, Repr

/-- Suffix normalization used by the import walk (the ensure-markdown
block of engine.go): append the markdown extension when absent. -/
def ensureMd (p : Str) : Str :=
  if (str ".md").isSuffixOf p then p else p ++ str ".md"

/-- Loop body of processImportsRecursive of engine.go, one iteration per
extracted import.  For each import: rebuild the literal placeholder text,
resolve nested placeholders in the path from the call-time variables only,
append the markdown suffix, and join with the root directory.  A path
already in the visited set is the cycle case: strict mode fails with an
ImportError naming the path and the importing template, lenient mode
erases the placeholder and continues.  Otherwise the path is marked
visited and loaded: a failed load fails in strict mode and keeps the
placeholder in lenient mode; a successful load recurses into the imported
body (the recurse argument is processImportsRecursive one fuel level down)
and replaces every occurrence of the placeholder with the expanded
import. -/
def piLoop (store : Store) (rootDir : Str) (vars : VarMap) (opts : GenerateOptions)
    (recurse : Str → Str → List Str → Option templateCache → ImpResult) :
    List Str → Str → Str → List Str → Option templateCache → ImpResult
  | [], content, _, processed, cache => .ok content processed cache
  | imp :: rest, content, current, processed, cache =>
    let fullMatch := str "\x7b\x7b@" ++ imp ++ str "\x7d\x7d"
    let ip2 := ensureMd (resolveDynamicPath vars imp)
    let fullImportPath := joinPath rootDir ip2
    if fullImportPath ∈ processed then
      if opts.strictMode then .err ⟨ip2, current, .circular⟩
      else piLoop store rootDir vars opts recurse rest (replaceAll content fullMatch []) current processed cache
    else
      let processed1 := fullImportPath :: processed
      match loadTemplate store cache fullImportPath opts with
      | (.error e, cache1) =>
        if opts.strictMode then .err ⟨ip2, current, .load e⟩
        else piLoop store rootDir vars opts recurse rest content current processed1 cache1
      | (.ok tpl, cache1) =>
        match recurse tpl.content ip2 processed1 cache1 with
        | .noFuel => .noFuel
        | .err e => .err e
        | .ok ic processed2 cache2 =>
          piLoop store rootDir vars opts recurse rest (replaceAll content fullMatch ic) current processed2 cache2

/-- processImportsRecursive of engine.go, fuel-indexed: extract the
imports of the content and run the loop, where descending into an
imported body is the same function one fuel level down. -/
def piRec (store : Store) (rootDir : Str) (vars : VarMap) (opts : GenerateOptions) :
    Nat → Str → Str → List Str → Option templateCache → ImpResult
  | 0, _, _, _, _ => .noFuel
  | g + 1, content, current, processed, cache =>
    piLoop store rootDir vars opts (piRec store rootDir vars opts g)
      (extractImports content) content current processed cache

/-- Number of distinct store paths not yet visited: the measure that
bounds the recursion depth of the import walk. -/
def keysLeft (store : Store) (processed : List Str) : Nat :=
  (((store.map Prod.fst).dedup).filter (fun k => decide (k ∉ processed))).length

/-- processImports of engine.go: the recursive walk started with an empty
visited set.  The fuel is one more than the number of distinct store
paths, which the termination theorem proves sufficient. -/
def processImports (store : Store) (rootDir : Str) (vars : VarMap) (opts : GenerateOptions)
    (content current : Str) (cache : Option templateCache) : ImpResult :=
  piRec store rootDir vars opts (keysLeft store [] + 1) content current [] cache

/-- Errors a generate call can surface. -/
inductive GenErr where
  | load (e : TemplateNotFoundError)
  | imp (e : ImportError)
  | var (e : VariableError)
  | fuelOut
deriving DecidableEq, Repr

/-- Defaults extraction of generateInternal.  The engine file asserts the
metadata binding of the defaults key to a Go map type; the parser stores
that binding as a map from string to string, and the embedding reads the
assertion at that stored type (the only composition of the two files that
type-checks); any other value leaves the defaults empty. -/
def defaultsOfMeta (md : Metadata) : List (Str × Str) :=
  match lookupA md (str "defaults") with
  | some (.strMap m) => m
  | _ => []

/-- Merge of generateInternal: front-matter defaults first, then the
caller variables overwriting them.  Go builds one map by successive
assignment; with first-match association-list lookup the same map is the
caller list in front of the defaults list. -/
def mergeVars (defaults : List (Str × Str)) (vars : VarMap) : VarMap :=
  vars ++ defaults

/-- generateInternal of engine.go up to the fully substituted text: append
the markdown suffix to the name, load the root template, expand imports
recursively, merge defaults beneath the caller variables, and substitute.
The final message split (echo.TemplateMessage) lives in the external echo
library and is outside this repository; the function returns the expanded
text and the metadata in its place. -/
def generateInternal (store : Store) (cfg : Config) (cache : Option templateCache)
    (name : Str) (vars : VarMap) (opts : GenerateOptions) :
    Except GenErr (Str × Metadata) × Option templateCache :=
  let name1 := if (str ".md").isSuffixOf name then name else name ++ str ".md"
  let fullPath := joinPath cfg.rootDir name1
  match loadTemplate store cache fullPath opts with
  | (.error e, cache1) => (.error (.load e), cache1)
  | (.ok tpl, cache1) =>
    match processImports store cfg.rootDir vars opts tpl.content name1 cache1 with
    | .noFuel => (.error .fuelOut, cache1)
    | .err e => (.error (.imp e), cache1)
    | .ok c2 _ cache2 =>
      let defaults := defaultsOfMeta tpl.metadata
      let mergedVars := mergeVars defaults vars
      match substituteVariables c2 mergedVars defaults opts with
      | (_, some ve) => (.error (.var ve), cache2)
      | (c3, none) => (.ok (c3, tpl.metadata), cache2)

/-! ## Shared concrete fixtures -/

/-- Engine configuration used by the concrete scenarios; generateInternal
reads only the root directory from it. -/
def cfgRoot : Config := ⟨str "root", ⟨true, false, true⟩, true, 0⟩

/-- Lenient options: missing variables allowed, no strict mode, cache off. -/
def lenientOpts : GenerateOptions := ⟨true, false, true⟩

/-- Strict options: missing variables allowed, strict mode, cache off. -/
def strictOpts : GenerateOptions := ⟨true, true, true⟩

/-- Diamond import graph: a imports b and c, b and c both import d. -/
def diamondStore : Store :=
  [ (str "root/a.md", ⟨0, str "\x7b\x7b@b\x7d\x7d\x7b\x7b@c\x7d\x7d"⟩),
    (str "root/b.md", ⟨0, str "\x7b\x7b@d\x7d\x7d B"⟩),
    (str "root/c.md", ⟨0, str "\x7b\x7b@d\x7d\x7d C"⟩),
    (str "root/d.md", ⟨0, str "D"⟩) ]

/-- One self-importing template: a.md imports a. -/
def cycleStore : Store := [ (str "root/a.md", ⟨0, str "\x7b\x7b@a\x7d\x7d X"⟩) ]

/-- Store with one existing import target; the other import target of the
scenario content is absent. -/
def missStore : Store := [ (str "root/ok.md", ⟨0, str "OK"⟩) ]

/-- Template whose body is a single plain placeholder with an inline
literal fallback, and whose front matter supplies a default for the same
name. -/
def litVsDefaultStore : Store :=
  [ (str "root/t.md", ⟨0, str "# default.x: d\n\x7b\x7bx|lit\x7d\x7d"⟩) ]

/-- Template whose body is a single plain placeholder (no inline literal)
with a front-matter default for its name. -/
def defaultOnlyStore : Store :=
  [ (str "root/t.md", ⟨0, str "# default.x: d\n\x7b\x7bx\x7d\x7d"⟩) ]

/-! ## Claim C1: plain-placeholder resolution precedence -/

/-- C1 counterexample.  The claim states that with no call-time value the
inline literal fallback wins over a front-matter default for the same
name.  Rendering a template whose body is one placeholder of name x with
literal fallback lit, whose front matter sets the default d for x, with an
empty call-time variable map, yields d, not lit: the engine merges the
front-matter defaults into the variable map before substitution, and the
substitution consults that merged map before the inline literal. -/
theorem plain_precedence_counterexample :
    (generateInternal litVsDefaultStore cfgRoot none (str "t") [] ⟨false, false, true⟩).1 =
      .ok (str "d", [(str "defaults", .strMap [(str "x", str "d")])]) ∧
    str "d" ≠ str "lit" := by
  exact ⟨rfl, by decide⟩

/-! ## Claim C2: raw placeholders and the later plain pass -/

/-- C2 counterexample.  The claim states that characters inserted by a raw
placeholder are never re-scanned by the plain pass and never cause a
missing-variable violation.  Substituting a raw placeholder of x whose
value is a plain placeholder of y, with missing variables disallowed and y
unbound, fails with a missing-variable error naming y: the inserted braces
were re-scanned as a plain placeholder and produced a violation. -/
theorem raw_transparency_counterexample :
    substituteVariables (str "\x7b\x7b\x7bx\x7d\x7d\x7d")
        [(str "x", str "\x7b\x7by\x7d\x7d")] [] ⟨false, false, true⟩ =
      ([], some ⟨str "y", str "current"⟩) := by
  decide

/-- C2 amended.  The raw pass runs first and its output, including any
brace sequences contained in substituted raw values, is re-scanned by the
subsequent plain pass: for every value of y and all options, substituting
the raw placeholder of x whose value is the plain placeholder text of y
yields the value of y, not that placeholder text. -/
theorem raw_value_is_rescanned :
    ∀ (vy : Str) (opts : GenerateOptions),
      substituteVariables (str "\x7b\x7b\x7bx\x7d\x7d\x7d")
          [(str "x", str "\x7b\x7by\x7d\x7d"), (str "y", vy)] [] opts =
        (vy, none) := by
  intro vy opts
  show ((vy ++ [] : Str), (none : Option VariableError)) = (vy, none)
  rw [List.append_nil]

/-! ## Claim C3: diamond import graphs -/

/-- C3 counterexample.  The claim states that a render of the diamond
graph succeeds in strict mode.  In strict mode it fails: the shared
visited set already contains d when the second path reaches it, and the
walk reports a circular import. -/
theorem diamond_strict_counterexample :
    (generateInternal diamondStore cfgRoot none (str "a") [] strictOpts).1 =
      .error (.imp ⟨str "d.md", str "c.md", .circular⟩) := by
  exact rfl

/-- C3 amended.  For every call-time variable map: in lenient mode the
diamond render succeeds and inlines the content of d exactly once (the
second reference expands to empty text), producing exactly the text
D space B space C; in strict mode the render fails with an ImportError
that reports the second reference to d as a circular import. -/
theorem diamond_amended :
    ∀ vars : VarMap,
      (generateInternal diamondStore cfgRoot none (str "a") vars lenientOpts).1 =
        .ok (str "D B C", [(str "defaults", .strMap [])]) ∧
      (generateInternal diamondStore cfgRoot none (str "a") vars strictOpts).1 =
        .error (.imp ⟨str "d.md", str "c.md", .circular⟩) := by
  intro vars
  exact ⟨rfl, rfl⟩

/-! ## Claim C5: cycle detection and failed loads, strict and lenient -/

/-- C5.  During import expansion, for every call-time variable map:
a detected cycle fails in strict mode with an ImportError carrying the
offending import path and the importing template and the circular cause,
while lenient mode replaces the cyclic reference with empty text and
completes; a failed load fails in strict mode with an ImportError wrapping
the NotFound cause, while lenient mode keeps the original import
expression verbatim and still processes the remaining imports (the second,
existing import is expanded). -/
theorem import_error_handling :
    ∀ vars : VarMap,
      processImports cycleStore (str "root") vars strictOpts
          (str "\x7b\x7b@a\x7d\x7d X") (str "a.md") none =
        .err ⟨str "a.md", str "a.md", .circular⟩ ∧
      processImports cycleStore (str "root") vars lenientOpts
          (str "\x7b\x7b@a\x7d\x7d X") (str "a.md") none =
        .ok (str " X X") [str "root/a.md"] none ∧
      processImports missStore (str "root") vars strictOpts
          (str "\x7b\x7b@missing\x7d\x7d \x7b\x7b@ok\x7d\x7d") (str "m.md") none =
        .err ⟨str "missing.md", str "m.md", .load ⟨str "missing.md", str "root/missing.md"⟩⟩ ∧
      processImports missStore (str "root") vars lenientOpts
          (str "\x7b\x7b@missing\x7d\x7d \x7b\x7b@ok\x7d\x7d") (str "m.md") none =
        .ok (str "\x7b\x7b@missing\x7d\x7d OK") [str "root/ok.md", str "root/missing.md"] none := by
  intro vars
  exact ⟨rfl, rfl, rfl, rfl⟩

/-! ## Association-list lemmas for the cache proofs -/

theorem lookupA_cons_self {β : Type} (k : Str) (v : β) (r : List (Str × β)) :
    lookupA ((k, v) :: r) k = some v := by
  simp [lookupA]

theorem eraseKey_cons_self {β : Type} (k : Str) (v : β) (r : List (Str × β)) :
    eraseKey ((k, v) :: r) k = r := by
  simp [eraseKey]

theorem lookupA_eq_none_of_not_mem {β : Type} :
    ∀ (l : List (Str × β)) (k : Str), k ∉ l.map Prod.fst → lookupA l k = none := by
  intro l
  induction l with
  | nil => intro k _; rfl
  | cons p r ih =>
    intro k hk
    obtain ⟨k0, v0⟩ := p
    have h0 : k0 ≠ k := by
      intro h
      refine hk ?_
      rw [List.map_cons, h]
      exact List.mem_cons_self k (r.map Prod.fst)
    have h1 : k ∉ r.map Prod.fst := by
      intro hm
      refine hk ?_
      rw [List.map_cons]
      exact List.mem_cons_of_mem _ hm
    simp only [lookupA, if_neg h0]
    exact ih k h1

theorem not_mem_of_lookupA_eq_none {β : Type} :
    ∀ (l : List (Str × β)) (k : Str), lookupA l k = none → k ∉ l.map Prod.fst := by
  intro l
  induction l with
  | nil => intro k _; simp
  | cons p r ih =>
    intro k hk
    obtain ⟨k0, v0⟩ := p
    by_cases h0 : k0 = k
    · subst h0
      rw [lookupA_cons_self] at hk
      exact absurd hk (by simp)
    · simp only [lookupA, if_neg h0] at hk
      simp only [List.map_cons, List.mem_cons]
      rintro (h | h)
      · exact h0 h.symm
      · exact ih k hk h

theorem not_mem_keys_eraseKey {β : Type} :
    ∀ (l : List (Str × β)) (k : Str), (l.map Prod.fst).Nodup →
      k ∉ (eraseKey l k).map Prod.fst := by
  intro l
  induction l with
  | nil => intro k _; simp [eraseKey]
  | cons p r ih =>
    intro k hnd
    obtain ⟨k0, v0⟩ := p
    simp only [List.map_cons, List.nodup_cons] at hnd
    by_cases h0 : k0 = k
    · subst h0
      rw [eraseKey_cons_self]
      exact hnd.1
    · simp only [eraseKey, if_neg h0, List.map_cons, List.mem_cons]
      rintro (h | h)
      · exact h0 h.symm
      · exact ih k hnd.2 h

theorem mem_keys_dropLast {β : Type} (l : List (Str × β)) (k : Str)
    (h : k ∈ (l.dropLast.map Prod.fst)) : k ∈ l.map Prod.fst := by
  rcases List.mem_map.1 h with ⟨p, hp, he⟩
  exact List.mem_map.2 ⟨p, List.dropLast_subset l hp, he⟩

/-! ## Claim C4: staleness behaves as a miss and evicts -/

/-- C4.  For a cache with unique keys, positive capacity and timestamps
t1 strictly before t2: after putting a document at t1, a get at t1 hits
and returns exactly that document; a following get at the newer time t2
misses and evicts the entry as its side effect, so that a further get back
at t1 also misses.  A stale lookup never returns the stale document. -/
theorem cache_stale_eviction (c : templateCache) (id : Str) (doc : parsedTemplate)
    (t1 t2 n0 n1 n2 n3 : Int)
    (hN : (c.items.map Prod.fst).Nodup) (hM : 1 ≤ c.maxSize) (h12 : t1 < t2) :
    (((c.put id doc t1 n0).get id t1 n1).1 = some doc) ∧
    (((((c.put id doc t1 n0).get id t1 n1).2).get id t2 n2).1 = none) ∧
    (((((((c.put id doc t1 n0).get id t1 n1).2).get id t2 n2).2).get id t1 n3).1 = none) := by
  have shape : ∃ rest, (c.put id doc t1 n0).items =
      (id, (⟨doc, t1, n0⟩ : cacheEntry)) :: rest ∧ id ∉ rest.map Prod.fst := by
    rcases hl : lookupA c.items id with _ | e
    · have hnm : id ∉ c.items.map Prod.fst := not_mem_of_lookupA_eq_none c.items id hl
      by_cases hover : ((id, (⟨doc, t1, n0⟩ : cacheEntry)) :: c.items).length > c.maxSize
      · have hne : c.items ≠ [] := by
          intro hnil
          rw [hnil] at hover
          simp only [List.length_cons, List.length_nil] at hover
          omega
        rcases List.exists_cons_of_ne_nil hne with ⟨p, r, hpr⟩
        refine ⟨c.items.dropLast, ?_, fun hmem => hnm (mem_keys_dropLast c.items id hmem)⟩
        simp only [templateCache.put, hl, if_pos hover]
        rw [hpr]
        rfl
      · refine ⟨c.items, ?_, hnm⟩
        simp only [templateCache.put, hl, if_neg hover]
    · refine ⟨eraseKey c.items id, ?_, not_mem_keys_eraseKey c.items id hN⟩
      simp only [templateCache.put, hl]
  rcases shape with ⟨rest, hitems, hrest⟩
  have hget1 : ((c.put id doc t1 n0).get id t1 n1) =
      (some doc,
       { c.put id doc t1 n0 with items := (id, (⟨doc, t1, n1⟩ : cacheEntry)) :: rest }) := by
    simp only [templateCache.get, hitems, lookupA_cons_self, eraseKey_cons_self]
    rw [if_neg (lt_irrefl t1)]
  refine ⟨by rw [hget1], ?_, ?_⟩
  · rw [hget1]
    simp only [templateCache.get, lookupA_cons_self]
    rw [if_pos h12]
  · rw [hget1]
    simp only [templateCache.get, lookupA_cons_self, eraseKey_cons_self]
    rw [if_pos h12]
    simp only [templateCache.get, lookupA_eq_none_of_not_mem rest id hrest]

/-- Fixed parsed template used by the cache witnesses. -/
def docW : parsedTemplate := ⟨[], str "T", []⟩

/-- Witness for C4 at a concrete empty cache of capacity three. -/
theorem cache_stale_eviction_witness :
    (((newTemplateCache 3).items.map Prod.fst).Nodup ∧ 1 ≤ (newTemplateCache 3).maxSize ∧
      (0 : Int) < 1) ∧
    ((((newTemplateCache 3).put (str "k") docW 0 0).get (str "k") 0 0).1 = some docW) ∧
    (((((newTemplateCache 3).put (str "k") docW 0 0).get (str "k") 0 0).2.get (str "k") 1 0).1 =
      none) ∧
    ((((((newTemplateCache 3).put (str "k") docW 0 0).get (str "k") 0 0).2.get (str "k") 1
        0).2.get (str "k") 0 0).1 = none) :=
  ⟨⟨by decide, by decide, by decide⟩,
    cache_stale_eviction (newTemplateCache 3) (str "k") docW 0 1 0 0 0 0
      (by decide) (by decide) (by decide)⟩

/-! ## Claim C6: strict least-recently-used discipline -/

/-- C6.  The cache keeps its entries in most-recently-used-first order.
First, a fresh hit promotes the entry to the front with its lastChecked
refreshed, returning the stored template: reads count as usage.  Second,
a put of an existing key overwrites the stored template and modification
time and moves the binding to the front.  Third, a put of a new key into a
cache filled to its (positive) capacity inserts at the front and evicts
exactly one entry, the back of the recency order, which is the entry
least recently touched by either get or put. -/
theorem cache_lru_discipline (c : templateCache) (key : Str) (tpl : parsedTemplate)
    (mt now : Int) (e : cacheEntry) :
    (lookupA c.items key = some e → ¬ mt > e.modTime →
      c.get key mt now =
        (some e.template,
         { c with items := (key, { e with lastChecked := now }) :: eraseKey c.items key })) ∧
    (lookupA c.items key = some e →
      (c.put key tpl mt now).items = (key, ⟨tpl, mt, now⟩) :: eraseKey c.items key) ∧
    (lookupA c.items key = none → 1 ≤ c.maxSize → c.items.length = c.maxSize →
      (c.put key tpl mt now).items = (key, ⟨tpl, mt, now⟩) :: c.items.dropLast) := by
  refine ⟨?_, ?_, ?_⟩
  · intro hl hfresh
    simp only [templateCache.get, hl]
    rw [if_neg hfresh]
  · intro hl
    simp only [templateCache.put, hl]
  · intro hl hcap hlen
    have hover : ((key, (⟨tpl, mt, now⟩ : cacheEntry)) :: c.items).length > c.maxSize := by
      simp only [List.length_cons, hlen]
      omega
    have hne : c.items ≠ [] := by
      intro hnil
      rw [hnil] at hlen
      simp only [List.length_nil] at hlen
      omega
    rcases List.exists_cons_of_ne_nil hne with ⟨p, r, hpr⟩
    simp only [templateCache.put, hl, if_pos hover]
    rw [hpr]
    rfl

/-- Witness for C6: each of the three parts applied at a concrete cache. -/
theorem cache_lru_discipline_witness :
    (lookupA (templateCache.mk [(str "a", ⟨docW, 0, 0⟩)] 3 5).items (str "a") =
        some ⟨docW, 0, 0⟩ ∧ ¬ (0 : Int) > (0 : Int)) ∧
    ((templateCache.mk [(str "a", ⟨docW, 0, 0⟩)] 3 5).get (str "a") 0 7 =
      (some docW, templateCache.mk [(str "a", ⟨docW, 0, 7⟩)] 3 5)) ∧
    ((templateCache.mk [(str "a", ⟨docW, 0, 0⟩)] 3 5).put (str "a") docW 2 9).items =
      [(str "a", ⟨docW, 2, 9⟩)] ∧
    ((templateCache.mk [(str "a", ⟨docW, 0, 0⟩)] 1 5).put (str "b") docW 2 9).items =
      [(str "b", ⟨docW, 2, 9⟩)] := by
  have h1 := (cache_lru_discipline (templateCache.mk [(str "a", ⟨docW, 0, 0⟩)] 3 5)
    (str "a") docW 0 7 ⟨docW, 0, 0⟩).1 (by decide) (by decide)
  have h2 := (cache_lru_discipline (templateCache.mk [(str "a", ⟨docW, 0, 0⟩)] 3 5)
    (str "a") docW 2 9 ⟨docW, 0, 0⟩).2.1 (by decide)
  have h3 := (cache_lru_discipline (templateCache.mk [(str "a", ⟨docW, 0, 0⟩)] 1 5)
    (str "b") docW 2 9 ⟨docW, 0, 0⟩).2.2 (by decide) (by decide) (by decide)
  refine ⟨⟨by decide, by decide⟩, ?_, ?_, ?_⟩
  · rw [h1]; decide
  · rw [h2]; decide
  · rw [h3]; decide

/-! ## Claim C7: all missing variables reported, no partial output -/

/-- Specification-side reading, for comparison with the scanner: the names
of the plain placeholders of the input that resolve to no value (no
variable binding and no nonempty inline literal), in scan order, import
spans skipped. -/
def specPlainMissing (vars : VarMap) : Nat → Str → List Str
  | 0, _ => []
  | f + 1, cs =>
    match plainMatchHead cs with
    | some (run, rest) =>
      if run.head? = some '@' then specPlainMissing vars f rest
      else
        let p := breakOnChar '|' (trimSpaceGo run)
        let varName := trimSpaceGo p.1
        let defaultValue := match p.2 with
          | some d => trimSpaceGo d
          | none => []
        match lookupA vars varName with
        | some _ => specPlainMissing vars f rest
        | none =>
          if defaultValue ≠ [] then specPlainMissing vars f rest
          else varName :: specPlainMissing vars f rest
    | none =>
      match cs with
      | [] => []
      | _ :: cs2 => specPlainMissing vars f cs2

/-- The missing-name component of the plain pass with missing variables
disallowed is exactly the specification-side enumeration. -/
theorem plainSubF_snd_eq_specMissing (vars : VarMap) :
    ∀ (f : Nat) (cs : Str), (plainSubF vars false f cs).2 = specPlainMissing vars f cs := by
  intro f
  induction f with
  | zero => intro cs; rfl
  | succ f ih =>
    intro cs
    rcases hm : plainMatchHead cs with _ | ⟨run, rest⟩
    · cases cs with
      | nil => simp only [plainSubF, specPlainMissing, hm]
      | cons c cs2 =>
        simp only [plainSubF, specPlainMissing, hm]
        exact ih cs2
    · by_cases hat : run.head? = some '@'
      · simp only [plainSubF, specPlainMissing, hm, if_pos hat]
        exact ih rest
      · rcases hv : lookupA vars (trimSpaceGo (breakOnChar '|' (trimSpaceGo run)).1) with _ | v
        · by_cases hd : (match (breakOnChar '|' (trimSpaceGo run)).2 with
              | some d => trimSpaceGo d
              | none => ([] : Str)) ≠ []
          · simp only [plainSubF, specPlainMissing, hm, if_neg hat, hv, if_pos hd]
            exact ih rest
          · simp only [plainSubF, specPlainMissing, hm, if_neg hat, hv, if_neg hd,
              Bool.false_eq_true, if_false]
            rw [ih rest]
        · simp only [plainSubF, specPlainMissing, hm, if_neg hat, hv]
          exact ih rest

/-- C7.  With missing variables disallowed, whenever at least one plain
placeholder resolves to no value, substituteVariables fails: it returns
the empty text (no partial output) together with a VariableError whose
variable field joins the names of all unresolved placeholders, in scan
order, with comma separators -- not only the first one encountered. -/
theorem missing_variables_all_reported (content : Str) (vars : VarMap)
    (defaults : List (Str × Str)) (opts : GenerateOptions)
    (hallow : opts.allowMissingVars = false)
    (hmiss : specPlainMissing vars ((rawSubF vars (content.length + 1) content).length + 1)
        (rawSubF vars (content.length + 1) content) ≠ []) :
    substituteVariables content vars defaults opts =
      ([], some ⟨joinWith (str ", ")
          (specPlainMissing vars ((rawSubF vars (content.length + 1) content).length + 1)
            (rawSubF vars (content.length + 1) content)), str "current"⟩) := by
  have h2 := plainSubF_snd_eq_specMissing vars
    ((rawSubF vars (content.length + 1) content).length + 1)
    (rawSubF vars (content.length + 1) content)
  simp only [substituteVariables, hallow, h2]
  rw [if_pos ⟨List.length_pos.2 hmiss, trivial⟩]

/-- Witness for C7: two unresolved placeholders produce one error naming
both, with the empty text as the content result. -/
theorem missing_variables_all_reported_witness :
    ((⟨false, false, false⟩ : GenerateOptions).allowMissingVars = false ∧
      specPlainMissing []
        ((rawSubF [] ((str "\x7b\x7ba\x7d\x7d \x7b\x7bb\x7d\x7d").length + 1)
            (str "\x7b\x7ba\x7d\x7d \x7b\x7bb\x7d\x7d")).length + 1)
        (rawSubF [] ((str "\x7b\x7ba\x7d\x7d \x7b\x7bb\x7d\x7d").length + 1)
          (str "\x7b\x7ba\x7d\x7d \x7b\x7bb\x7d\x7d")) ≠ []) ∧
    substituteVariables (str "\x7b\x7ba\x7d\x7d \x7b\x7bb\x7d\x7d") [] [] ⟨false, false, false⟩ =
      ([], some ⟨str "a, b", str "current"⟩) := by
  refine ⟨⟨rfl, by decide⟩, ?_⟩
  rw [missing_variables_all_reported (str "\x7b\x7ba\x7d\x7d \x7b\x7bb\x7d\x7d") [] []
    ⟨false, false, false⟩ rfl (by decide)]
  decide

/-! ## Claim C10: caching cannot be disabled through the configuration -/

/-- C10.  First part: every engine that New constructs has EnableCache
true and a cache present -- a configuration with EnableCache false is
overwritten to true inside New.  Second part: the per-call DisableCache
flag is the only bypass: with it set, loadTemplate leaves the cache
untouched and its result does not depend on the cache at all. -/
theorem caching_always_enabled :
    (∀ (config : Config) (rootStat : Option Bool) (e : templateEngine),
        New config rootStat = .ok e →
          e.config.enableCache = true ∧ e.cache.isSome = true) ∧
    (∀ (store : Store) (c : Option templateCache) (path : Str) (opts : GenerateOptions),
        opts.disableCache = true →
          (loadTemplate store c path opts).2 = c ∧
          (loadTemplate store c path opts).1 = (loadTemplate store none path opts).1) := by
  constructor
  · intro config rootStat e h
    by_cases h0 : config.rootDir = []
    · simp only [New, if_pos h0] at h
      exact absurd h (by simp)
    · rcases rootStat with _ | b
      · simp only [New, if_neg h0] at h
        exact absurd h (by simp)
      · cases b
        · simp only [New, if_neg h0] at h
          exact absurd h (by simp)
        · simp only [New, if_neg h0] at h
          rw [Except.ok.injEq] at h
          subst h
          by_cases hz : config.cacheSize = 0 <;>
            by_cases he : config.enableCache = false <;>
              simp_all [hz, he]
  · intro store c path opts h
    refine ⟨?_, ?_⟩ <;>
      rcases hl : lookupA store path with _ | file <;>
        rcases c with _ | c0 <;>
          simp [loadTemplate, hl, h]

/-- Witness for C10: a configuration that asks for caching off still gets
a cache, and a bypassing load leaves a concrete cache unchanged. -/
theorem caching_always_enabled_witness :
    (New ⟨str "r", ⟨false, false, false⟩, false, 0⟩ (some true) =
      .ok ⟨⟨str "r", ⟨false, false, false⟩, true, 100⟩, some (newTemplateCache 100)⟩) ∧
    ((⟨⟨str "r", ⟨false, false, false⟩, true, 100⟩, some (newTemplateCache 100)⟩ :
        templateEngine).config.enableCache = true ∧
      (⟨⟨str "r", ⟨false, false, false⟩, true, 100⟩, some (newTemplateCache 100)⟩ :
        templateEngine).cache.isSome = true) ∧
    ((⟨true, false, true⟩ : GenerateOptions).disableCache = true ∧
      (loadTemplate [] (some (newTemplateCache 3)) (str "p") ⟨true, false, true⟩).2 =
        some (newTemplateCache 3)) :=
  ⟨rfl,
    caching_always_enabled.1 ⟨str "r", ⟨false, false, false⟩, false, 0⟩ (some true)
      ⟨⟨str "r", ⟨false, false, false⟩, true, 100⟩, some (newTemplateCache 100)⟩ rfl,
    rfl,
    (caching_always_enabled.2 [] (some (newTemplateCache 3)) (str "p")
      ⟨true, false, true⟩ rfl).1⟩

/-! ## Claim C9: the import walk terminates

The fuel supplied by processImports is one more than the number of
distinct store paths.  The walk only descends after a successful load of a
path that is not yet in the visited set, a successful load requires the
path to be a store key, and every descent first adds that path to the
visited set -- so the number of distinct store keys outside the visited
set strictly shrinks with each descent and bounds the recursion depth. -/

theorem mem_keys_of_lookupA_isSome {β : Type} (l : List (Str × β)) (k : Str) (v : β)
    (h : lookupA l k = some v) : k ∈ l.map Prod.fst := by
  by_contra hnm
  rw [lookupA_eq_none_of_not_mem l k hnm] at h
  exact Option.noConfusion h

theorem length_filter_mono {α : Type} (P Q : α → Bool) (h : ∀ a, P a = true → Q a = true) :
    ∀ l : List α, (l.filter P).length ≤ (l.filter Q).length := by
  intro l
  induction l with
  | nil => simp
  | cons a l ih =>
    by_cases hP : P a = true
    · rw [List.filter_cons_of_pos hP, List.filter_cons_of_pos (h a hP)]
      simpa using ih
    · rw [List.filter_cons_of_neg (by simpa using hP)]
      by_cases hQ : Q a = true
      · rw [List.filter_cons_of_pos hQ]
        exact Nat.le_succ_of_le ih
      · rw [List.filter_cons_of_neg (by simpa using hQ)]
        exact ih

theorem length_filter_lt {α : Type} (P Q : α → Bool) (x : α)
    (h : ∀ a, P a = true → Q a = true) (hPx : P x = false) (hQx : Q x = true) :
    ∀ l : List α, x ∈ l → (l.filter P).length < (l.filter Q).length := by
  intro l
  induction l with
  | nil => intro hx; cases hx
  | cons a l ih =>
    intro hx
    rcases List.mem_cons.1 hx with hax | hxl
    · subst hax
      rw [List.filter_cons_of_neg (by simp [hPx]), List.filter_cons_of_pos hQx]
      exact Nat.lt_succ_of_le (length_filter_mono P Q h l)
    · by_cases hP : P a = true
      · rw [List.filter_cons_of_pos hP, List.filter_cons_of_pos (h a hP)]
        simpa using ih hxl
      · rw [List.filter_cons_of_neg (by simpa using hP)]
        by_cases hQ : Q a = true
        · rw [List.filter_cons_of_pos hQ]
          exact Nat.lt_succ_of_le (Nat.le_of_lt (ih hxl))
        · rw [List.filter_cons_of_neg (by simpa using hQ)]
          exact ih hxl

theorem keysLeft_mono (store : Store) (p q : List Str) (h : p ⊆ q) :
    keysLeft store q ≤ keysLeft store p := by
  refine length_filter_mono _ _ ?_ _
  intro a ha
  simp only [decide_eq_true_eq] at ha ⊢
  exact fun hap => ha (h hap)

theorem keysLeft_lt (store : Store) (p : List Str) (x : Str)
    (hx : x ∈ store.map Prod.fst) (hnp : x ∉ p) :
    keysLeft store (x :: p) < keysLeft store p := by
  refine length_filter_lt _ _ x ?_ ?_ ?_ _ (List.mem_dedup.2 hx)
  · intro a ha
    simp only [decide_eq_true_eq] at ha ⊢
    intro hap
    exact ha (List.mem_cons_of_mem x hap)
  · simp
  · simpa using hnp

theorem loadTemplate_ok_mem (store : Store) (cache : Option templateCache) (path : Str)
    (opts : GenerateOptions) (tpl : parsedTemplate) (cc : Option templateCache)
    (h : loadTemplate store cache path opts = (.ok tpl, cc)) : path ∈ store.map Prod.fst := by
  rcases hl : lookupA store path with _ | file
  · simp only [loadTemplate, hl] at h
    rw [Prod.mk.injEq] at h
    exact absurd h.1 (by simp)
  · exact mem_keys_of_lookupA_isSome store path file hl

theorem piLoop_subset_generic (store : Store) (rootDir : Str) (vars : VarMap)
    (opts : GenerateOptions)
    (recurse : Str → Str → List Str → Option templateCache → ImpResult)
    (hrec : ∀ content current processed cache c2 p2 cc2,
      recurse content current processed cache = .ok c2 p2 cc2 → processed ⊆ p2) :
    ∀ (imps : List Str) (content current : Str) (processed : List Str)
      (cache : Option templateCache) (c2 : Str) (p2 : List Str) (cc2 : Option templateCache),
      piLoop store rootDir vars opts recurse imps content current processed cache =
        .ok c2 p2 cc2 → processed ⊆ p2 := by
  intro imps
  induction imps with
  | nil =>
    intro content current processed cache c2 p2 cc2 h
    simp only [piLoop] at h
    rw [ImpResult.ok.injEq] at h
    rw [h.2.1]
    exact fun a ha => ha
  | cons imp rest ih =>
    intro content current processed cache c2 p2 cc2 h
    simp only [piLoop] at h
    split at h
    · split at h
      · exact absurd h (by simp)
      · exact ih _ _ _ _ _ _ _ h
    · split at h
      next e cache1 heq =>
        split at h
        · exact absurd h (by simp)
        · exact fun a ha => ih _ _ _ _ _ _ _ h (List.mem_cons_of_mem _ ha)
      next tpl cache1 heq =>
        split at h
        next heq2 => exact absurd h (by simp)
        next e3 heq2 => exact absurd h (by simp)
        next c3 p3 cc3 heq2 =>
          have h1 := hrec _ _ _ _ _ _ _ heq2
          have h2 := ih _ _ _ _ _ _ _ h
          exact fun a ha => h2 (h1 (List.mem_cons_of_mem _ ha))

theorem piRec_processed_subset (store : Store) (rootDir : Str) (vars : VarMap)
    (opts : GenerateOptions) :
    ∀ (f : Nat) (content current : Str) (processed : List Str)
      (cache : Option templateCache) (c2 : Str) (p2 : List Str) (cc2 : Option templateCache),
      piRec store rootDir vars opts f content current processed cache = .ok c2 p2 cc2 →
        processed ⊆ p2 := by
  intro f
  induction f with
  | zero =>
    intro content current processed cache c2 p2 cc2 h
    exact absurd h (by simp [piRec])
  | succ f ih =>
    intro content current processed cache c2 p2 cc2 h
    simp only [piRec] at h
    exact piLoop_subset_generic store rootDir vars opts _
      (fun a b c d e g k => ih a b c d e g k) _ _ _ _ _ _ _ _ h

theorem piLoop_ne_noFuel (store : Store) (rootDir : Str) (vars : VarMap)
    (opts : GenerateOptions) (f : Nat)
    (hrecNF : ∀ content current processed cache,
      keysLeft store processed < f →
        piRec store rootDir vars opts f content current processed cache ≠ .noFuel) :
    ∀ (imps : List Str) (content current : Str) (processed : List Str)
      (cache : Option templateCache),
      keysLeft store processed ≤ f →
        piLoop store rootDir vars opts (piRec store rootDir vars opts f) imps content current
          processed cache ≠ .noFuel := by
  intro imps
  induction imps with
  | nil =>
    intro content current processed cache hm
    simp [piLoop]
  | cons imp rest ih =>
    intro content current processed cache hm
    simp only [piLoop]
    split
    next hin =>
      split
      · simp
      · exact ih _ _ _ _ hm
    next hin =>
      split
      next e cache1 heq =>
        split
        · simp
        · exact ih _ _ _ _
            (le_trans (keysLeft_mono store processed _ (List.subset_cons_self _ _)) hm)
      next tpl cache1 heq =>
        have hkey := loadTemplate_ok_mem store cache _ opts tpl cache1 heq
        have hlt := keysLeft_lt store processed _ hkey hin
        split
        next heq2 =>
          exact absurd heq2 (hrecNF _ _ _ _ (lt_of_lt_of_le hlt hm))
        next e3 heq2 => simp
        next c3 p3 cc3 heq2 =>
          have hsub := piRec_processed_subset store rootDir vars opts f _ _ _ _ _ _ _ heq2
          refine ih _ _ _ _ ?_
          calc keysLeft store p3 ≤ keysLeft store _ := keysLeft_mono store _ p3 hsub
            _ ≤ f := le_of_lt (lt_of_lt_of_le hlt hm)

theorem piRec_ne_noFuel (store : Store) (rootDir : Str) (vars : VarMap)
    (opts : GenerateOptions) :
    ∀ (f : Nat) (content current : Str) (processed : List Str)
      (cache : Option templateCache),
      keysLeft store processed < f →
        piRec store rootDir vars opts f content current processed cache ≠ .noFuel := by
  intro f
  induction f with
  | zero =>
    intro content current processed cache hm
    exact absurd hm (Nat.not_lt_zero _)
  | succ f ih =>
    intro content current processed cache hm
    simp only [piRec]
    exact piLoop_ne_noFuel store rootDir vars opts f ih _ _ _ _ _ (Nat.lt_succ_iff.1 hm)

/-- True exactly when the fuel-indexed walk ran out of fuel. -/
def ImpResult.ranOut : ImpResult → Bool
  | .noFuel => true
  | _ => false

/-- C9.  For every store, root directory, variable map, options, content,
current template and cache state, the recursive import expansion run by
processImports terminates without exhausting its fuel: the fuel is one
more than the number of distinct store paths, each recursive descent
enters only after adding a fresh store path to the visited set, and so the
recursion depth is bounded by the number of distinct template identifiers
reachable in the call.  Cyclic graphs fall under the same bound because a
repeated identifier takes the cycle branch instead of descending. -/
theorem import_expansion_terminates (store : Store) (rootDir : Str) (vars : VarMap)
    (opts : GenerateOptions) (content current : Str) (cache : Option templateCache) :
    ImpResult.ranOut (processImports store rootDir vars opts content current cache) = false := by
  have h := piRec_ne_noFuel store rootDir vars opts (keysLeft store [] + 1) content current []
    cache (Nat.lt_succ_self _)
  unfold processImports
  cases hres : piRec store rootDir vars opts (keysLeft store [] + 1) content current [] cache with
  | ok a b c => rfl
  | err e => rfl
  | noFuel => exact absurd hres h

/-! ## Scanner evaluation lemmas for the universal substitution claims -/

theorem takeWhile_append_of_all {α : Type} (p : α → Bool) :
    ∀ (l1 l2 : List α), (∀ c ∈ l1, p c = true) →
      (l1 ++ l2).takeWhile p = l1 ++ l2.takeWhile p := by
  intro l1
  induction l1 with
  | nil => intro l2 _; simp
  | cons a l ih =>
    intro l2 h
    have ha : p a = true := h a (List.mem_cons_self a l)
    rw [List.cons_append, List.takeWhile_cons_of_pos ha,
      ih l2 (fun c hc => h c (List.mem_cons_of_mem a hc)), List.cons_append]

theorem dropWhile_append_of_all {α : Type} (p : α → Bool) :
    ∀ (l1 l2 : List α), (∀ c ∈ l1, p c = true) →
      (l1 ++ l2).dropWhile p = l2.dropWhile p := by
  intro l1
  induction l1 with
  | nil => intro l2 _; simp
  | cons a l ih =>
    intro l2 h
    have ha : p a = true := h a (List.mem_cons_self a l)
    rw [List.cons_append, List.dropWhile_cons_of_pos ha,
      ih l2 (fun c hc => h c (List.mem_cons_of_mem a hc))]

theorem dropWhile_eq_self_of_all {α : Type} (p : α → Bool) (l : List α)
    (h : ∀ c ∈ l, p c = false) : l.dropWhile p = l := by
  cases l with
  | nil => rfl
  | cons a l =>
    exact List.dropWhile_cons_of_neg (by simp [h a (List.mem_cons_self a l)])

theorem trimSpaceGo_eq_self (l : Str) (h : ∀ c ∈ l, isSpaceGo c = false) :
    trimSpaceGo l = l := by
  unfold trimSpaceGo trimLeftGo trimRightGo
  rw [dropWhile_eq_self_of_all _ l h,
    dropWhile_eq_self_of_all _ l.reverse (fun c hc => h c (List.mem_reverse.1 hc)),
    List.reverse_reverse]

theorem breakOnChar_append_sep (sep : Char) :
    ∀ (l1 l2 : Str), (∀ c ∈ l1, c ≠ sep) →
      breakOnChar sep (l1 ++ sep :: l2) = (l1, some l2) := by
  intro l1
  induction l1 with
  | nil => intro l2 _; simp [breakOnChar]
  | cons a l ih =>
    intro l2 h
    have ha : a ≠ sep := h a (List.mem_cons_self a l)
    rw [List.cons_append]
    simp only [breakOnChar, if_neg ha, ih l2 (fun c hc => h c (List.mem_cons_of_mem a hc))]

theorem breakOnChar_no_sep (sep : Char) :
    ∀ (l : Str), (∀ c ∈ l, c ≠ sep) → breakOnChar sep l = (l, none) := by
  intro l
  induction l with
  | nil => intro _; rfl
  | cons a l ih =>
    intro h
    have ha : a ≠ sep := h a (List.mem_cons_self a l)
    simp only [breakOnChar, if_neg ha, ih (fun c hc => h c (List.mem_cons_of_mem a hc))]

theorem rawMatchHead_cons_ne (c : Char) (cs : Str) (hc : c ≠ '\x7b') :
    rawMatchHead (c :: cs) = none := by
  rcases cs with _ | ⟨b, _ | ⟨d, t⟩⟩
  · rfl
  · rfl
  · simp only [rawMatchHead]
    rw [if_neg (fun hh => hc hh.1)]

theorem rawSubF_eq_self_of_no_lb (vars : VarMap) :
    ∀ (f : Nat) (cs : Str), (∀ c ∈ cs, c ≠ '\x7b') → rawSubF vars f cs = cs := by
  intro f
  induction f with
  | zero => intro cs _; rfl
  | succ f ih =>
    intro cs h
    cases cs with
    | nil => rfl
    | cons c cs2 =>
      simp only [rawSubF, rawMatchHead_cons_ne c cs2 (h c (List.mem_cons_self c cs2))]
      rw [ih cs2 (fun x hx => h x (List.mem_cons_of_mem c hx))]

theorem rawSubF_body_id (vars : VarMap) (rest : Str) (h : ∀ c ∈ rest, c ≠ '\x7b') :
    ∀ f, rawSubF vars f ('\x7b' :: '\x7b' :: rest) = '\x7b' :: '\x7b' :: rest := by
  intro f
  cases f with
  | zero => rfl
  | succ f =>
    have h1 : rawMatchHead ('\x7b' :: '\x7b' :: rest) = none := by
      rcases rest with _ | ⟨r0, t⟩
      · rfl
      · simp only [rawMatchHead]
        rw [if_neg (fun hh => (h r0 (List.mem_cons_self r0 t)) hh.2.2)]
    simp only [rawSubF, h1]
    cases f with
    | zero => rfl
    | succ g =>
      have h2 : rawMatchHead ('\x7b' :: rest) = none := by
        rcases rest with _ | ⟨r0, _ | ⟨r1, t2⟩⟩
        · rfl
        · rfl
        · simp only [rawMatchHead]
          rw [if_neg (fun hh => (h r0 (List.mem_cons_self r0 _)) hh.2.1)]
      simp only [rawSubF, h2]
      rw [rawSubF_eq_self_of_no_lb vars g rest h]

theorem plainSubF_nil (vars : VarMap) (allow : Bool) :
    ∀ f, plainSubF vars allow f [] = ([], []) := by
  intro f
  cases f <;> rfl

theorem plainMatchHead_body (mid : Str) (m0 : Char) (mrest : Str) (hmid0 : mid = m0 :: mrest)
    (hmid : ∀ c ∈ mid, c ≠ '\x7d') :
    plainMatchHead ('\x7b' :: '\x7b' :: (mid ++ str "\x7d\x7d")) = some (mid, []) := by
  have hbool : ∀ c ∈ mid, (fun x => decide (x ≠ '\x7d')) c = true := by
    intro c hc
    simp [hmid c hc]
  have ht : (mid ++ str "\x7d\x7d").takeWhile (fun x => decide (x ≠ '\x7d')) = mid := by
    rw [takeWhile_append_of_all _ mid (str "\x7d\x7d") hbool]
    simp [str]
  have hd : (mid ++ str "\x7d\x7d").dropWhile (fun x => decide (x ≠ '\x7d')) = str "\x7d\x7d" := by
    rw [dropWhile_append_of_all _ mid (str "\x7d\x7d") hbool]
    rfl
  simp only [plainMatchHead, ht, hd]
  rw [hmid0]
  rfl

/-! ## Claim C1: the amended precedence statement -/

/-- Characters allowed in a plain placeholder variable name for the
precedence theorem: no braces, no pipe, no at sign, no white space. -/
def nameChar (c : Char) : Bool :=
  !(c = '\x7b' || c = '\x7d' || c = '|' || c = '@' || isSpaceGo c)

/-- Characters allowed in an inline literal fallback for the precedence
theorem: no braces, no white space. -/
def litChar (c : Char) : Bool :=
  !(c = '\x7b' || c = '\x7d' || isSpaceGo c)

theorem nameChar_facts (c : Char) (h : nameChar c = true) :
    c ≠ '\x7b' ∧ c ≠ '\x7d' ∧ c ≠ '|' ∧ c ≠ '@' ∧ isSpaceGo c = false := by
  simp only [nameChar, Bool.not_eq_true', Bool.or_eq_false_iff, decide_eq_false_iff_not] at h
  exact ⟨h.1.1.1.1, h.1.1.1.2, h.1.1.2, h.1.2, h.2⟩

theorem litChar_facts (c : Char) (h : litChar c = true) :
    c ≠ '\x7b' ∧ c ≠ '\x7d' ∧ isSpaceGo c = false := by
  simp only [litChar, Bool.not_eq_true', Bool.or_eq_false_iff, decide_eq_false_iff_not] at h
  exact ⟨h.1.1, h.1.2, h.2⟩

theorem lookupA_append_some {β : Type} :
    ∀ (l1 l2 : List (Str × β)) (k : Str) (v : β), lookupA l1 k = some v →
      lookupA (l1 ++ l2) k = some v := by
  intro l1
  induction l1 with
  | nil => intro l2 k v h; exact absurd h (by simp [lookupA])
  | cons p r ih =>
    intro l2 k v h
    obtain ⟨k0, v0⟩ := p
    by_cases h0 : k0 = k
    · simp only [lookupA, if_pos h0] at h
      simp only [List.cons_append, lookupA, if_pos h0, h]
    · simp only [lookupA, if_neg h0] at h
      simp only [List.cons_append, lookupA, if_neg h0]
      exact ih l2 k v h

theorem lookupA_append_none {β : Type} :
    ∀ (l1 l2 : List (Str × β)) (k : Str), lookupA l1 k = none →
      lookupA (l1 ++ l2) k = lookupA l2 k := by
  intro l1
  induction l1 with
  | nil => intro l2 k _; rfl
  | cons p r ih =>
    intro l2 k h
    obtain ⟨k0, v0⟩ := p
    by_cases h0 : k0 = k
    · simp only [lookupA, if_pos h0] at h
      exact absurd h (by simp)
    · simp only [lookupA, if_neg h0] at h
      simp only [List.cons_append, lookupA, if_neg h0]
      exact ih l2 k h

/-- C1 amended.  For every placeholder name and inline literal over
unproblematic characters (no braces, pipes, at signs or white space in the
name; no braces or white space in the literal), every call-time variable
map, front-matter defaults map and options, substituting the single
placeholder body through the merged variable map of generateInternal
resolves with this precedence: the explicit call-time value; otherwise the
merged front-matter default -- which therefore wins over the inline
literal, contrary to the original claim; otherwise the nonempty inline
literal; otherwise the missing-variable handling (placeholder kept when
missing variables are allowed, an error naming the variable when not).
The first conjunct treats the pipe form, the second the bare form. -/
theorem plain_precedence_amended (name lit : Str) (vars defaults : VarMap)
    (opts : GenerateOptions) (hn0 : name ≠ []) (hn : name.all nameChar = true)
    (hl : lit.all litChar = true) :
    (substituteVariables ('\x7b' :: '\x7b' :: ((name ++ '|' :: lit) ++ str "\x7d\x7d"))
        (mergeVars defaults vars) defaults opts =
      (match lookupA vars name with
       | some v => (v, none)
       | none =>
         match lookupA defaults name with
         | some dv => (dv, none)
         | none =>
           if lit ≠ [] then (lit, none)
           else if opts.allowMissingVars then
             ('\x7b' :: '\x7b' :: ((name ++ '|' :: lit) ++ str "\x7d\x7d"), none)
           else ([], some ⟨name, str "current"⟩))) ∧
    (substituteVariables ('\x7b' :: '\x7b' :: (name ++ str "\x7d\x7d"))
        (mergeVars defaults vars) defaults opts =
      (match lookupA vars name with
       | some v => (v, none)
       | none =>
         match lookupA defaults name with
         | some dv => (dv, none)
         | none =>
           if opts.allowMissingVars then
             ('\x7b' :: '\x7b' :: (name ++ str "\x7d\x7d"), none)
           else ([], some ⟨name, str "current"⟩))) := by
  obtain ⟨n0, nrest, hname⟩ : ∃ n0 nrest, name = n0 :: nrest := by
    cases name with
    | nil => exact absurd rfl hn0
    | cons a l => exact ⟨a, l, rfl⟩
  have hnf : ∀ c ∈ name, c ≠ '\x7b' ∧ c ≠ '\x7d' ∧ c ≠ '|' ∧ c ≠ '@' ∧ isSpaceGo c = false :=
    fun c hc => nameChar_facts c (List.all_eq_true.1 hn c hc)
  have hlf : ∀ c ∈ lit, c ≠ '\x7b' ∧ c ≠ '\x7d' ∧ isSpaceGo c = false :=
    fun c hc => litChar_facts c (List.all_eq_true.1 hl c hc)
  have htn : trimSpaceGo name = name :=
    trimSpaceGo_eq_self _ (fun c hc => (hnf c hc).2.2.2.2)
  have htl : trimSpaceGo lit = lit :=
    trimSpaceGo_eq_self _ (fun c hc => (hlf c hc).2.2)
  constructor
  · -- pipe form
    have hmidr : ∀ c ∈ name ++ '|' :: lit, c ≠ '\x7d' := by
      intro c hc
      rcases List.mem_append.1 hc with h1 | h2
      · exact (hnf c h1).2.1
      · rcases List.mem_cons.1 h2 with h3 | h4
        · rw [h3]; decide
        · exact (hlf c h4).2.1
    have hnol : ∀ c ∈ (name ++ '|' :: lit) ++ str "\x7d\x7d", c ≠ '\x7b' := by
      intro c hc
      rcases List.mem_append.1 hc with h1 | h2
      · rcases List.mem_append.1 h1 with h3 | h4
        · exact (hnf c h3).1
        · rcases List.mem_cons.1 h4 with h5 | h6
          · rw [h5]; decide
          · exact (hlf c h6).1
      · have : c = '\x7d' := by
          rcases List.mem_cons.1 h2 with h5 | h6
          · exact h5
          · rcases List.mem_cons.1 h6 with h7 | h8
            · exact h7
            · exact absurd h8 (List.not_mem_nil c)
        rw [this]; decide
    have hm1 : plainMatchHead ('\x7b' :: '\x7b' :: ((name ++ '|' :: lit) ++ str "\x7d\x7d")) =
        some (name ++ '|' :: lit, []) :=
      plainMatchHead_body _ n0 (nrest ++ '|' :: lit) (by rw [hname]; rfl) hmidr
    have htm : trimSpaceGo (name ++ '|' :: lit) = name ++ '|' :: lit := by
      refine trimSpaceGo_eq_self _ ?_
      intro c hc
      rcases List.mem_append.1 hc with h1 | h2
      · exact (hnf c h1).2.2.2.2
      · rcases List.mem_cons.1 h2 with h3 | h4
        · rw [h3]; decide
        · exact (hlf c h4).2.2
    have hbk : breakOnChar '|' (name ++ '|' :: lit) = (name, some lit) :=
      breakOnChar_append_sep '|' name lit (fun c hc => (hnf c hc).2.2.1)
    have hat : ¬((name ++ '|' :: lit).head? = some '@') := by
      intro hcon
      rw [hname] at hcon
      simp only [List.cons_append, List.head?_cons, Option.some.injEq] at hcon
      exact (hnf n0 (by rw [hname]; exact List.mem_cons_self n0 nrest)).2.2.2.1 hcon
    have hstep : ∀ (vv : VarMap) (allow : Bool) (f : Nat),
        plainSubF vv allow (f + 1) ('\x7b' :: '\x7b' :: ((name ++ '|' :: lit) ++ str "\x7d\x7d")) =
          (match lookupA vv name with
           | some v => (v, [])
           | none =>
             if lit ≠ [] then (lit, [])
             else if allow then
               ('\x7b' :: '\x7b' :: ((name ++ '|' :: lit) ++ str "\x7d\x7d"), [])
             else ('\x7b' :: '\x7b' :: ((name ++ '|' :: lit) ++ str "\x7d\x7d"), [name])) := by
      intro vv allow f
      simp only [plainSubF, hm1, htm, hbk, htl, htn]
      rw [if_neg hat]
      cases hlk : lookupA vv name with
      | some v =>
        simp only [plainSubF_nil, List.append_nil]
      | none =>
        simp only [plainSubF_nil, List.append_nil]
        rfl
    simp only [substituteVariables, rawSubF_body_id (mergeVars defaults vars) _ hnol]
    rw [hstep (mergeVars defaults vars) opts.allowMissingVars _]
    cases hv : lookupA vars name with
    | some v => simp [mergeVars, lookupA_append_some vars defaults name v hv]
    | none =>
      have hmv := lookupA_append_none vars defaults name hv
      cases hd : lookupA defaults name with
      | some dv => simp [mergeVars, hmv, hd]
      | none =>
        by_cases hlit : lit ≠ []
        · simp [mergeVars, hmv, hd, hlit]
        · cases hA : opts.allowMissingVars <;> simp [mergeVars, hmv, hd, hlit, hA, joinWith]
  · -- bare form
    have hmidr : ∀ c ∈ name, c ≠ '\x7d' := fun c hc => (hnf c hc).2.1
    have hnol : ∀ c ∈ name ++ str "\x7d\x7d", c ≠ '\x7b' := by
      intro c hc
      rcases List.mem_append.1 hc with h1 | h2
      · exact (hnf c h1).1
      · have : c = '\x7d' := by
          rcases List.mem_cons.1 h2 with h5 | h6
          · exact h5
          · rcases List.mem_cons.1 h6 with h7 | h8
            · exact h7
            · exact absurd h8 (List.not_mem_nil c)
        rw [this]; decide
    have hm2 : plainMatchHead ('\x7b' :: '\x7b' :: (name ++ str "\x7d\x7d")) =
        some (name, []) :=
      plainMatchHead_body _ n0 nrest hname hmidr
    have hbk : breakOnChar '|' name = (name, none) :=
      breakOnChar_no_sep '|' name (fun c hc => (hnf c hc).2.2.1)
    have hat : ¬(name.head? = some '@') := by
      intro hcon
      rw [hname] at hcon
      simp only [List.head?_cons, Option.some.injEq] at hcon
      exact (hnf n0 (by rw [hname]; exact List.mem_cons_self n0 nrest)).2.2.2.1 hcon
    have hstep : ∀ (vv : VarMap) (allow : Bool) (f : Nat),
        plainSubF vv allow (f + 1) ('\x7b' :: '\x7b' :: (name ++ str "\x7d\x7d")) =
          (match lookupA vv name with
           | some v => (v, [])
           | none =>
             if allow then ('\x7b' :: '\x7b' :: (name ++ str "\x7d\x7d"), [])
             else ('\x7b' :: '\x7b' :: (name ++ str "\x7d\x7d"), [name])) := by
      intro vv allow f
      simp only [plainSubF, hm2, htn, hbk]
      rw [if_neg hat]
      cases hlk : lookupA vv name with
      | some v =>
        simp only [plainSubF_nil, List.append_nil]
      | none =>
        simp only [plainSubF_nil, List.append_nil]
        rfl
    simp only [substituteVariables, rawSubF_body_id (mergeVars defaults vars) _ hnol]
    rw [hstep (mergeVars defaults vars) opts.allowMissingVars _]
    cases hv : lookupA vars name with
    | some v => simp [mergeVars, lookupA_append_some vars defaults name v hv]
    | none =>
      have hmv := lookupA_append_none vars defaults name hv
      cases hd : lookupA defaults name with
      | some dv => simp [mergeVars, hmv, hd]
      | none =>
        cases hA : opts.allowMissingVars <;> simp [mergeVars, hmv, hd, hA, joinWith]

/-- Witness for C1 amended: the name x with literal lit, empty call-time
variables and the front-matter default d resolves to d (the merged default
wins over the inline literal), instantiating the first conjunct. -/
theorem plain_precedence_amended_witness :
    ((str "x") ≠ [] ∧ (str "x").all nameChar = true ∧ (str "lit").all litChar = true) ∧
    substituteVariables ('\x7b' :: '\x7b' :: ((str "x" ++ '|' :: str "lit") ++ str "\x7d\x7d"))
        (mergeVars [(str "x", str "d")] []) [(str "x", str "d")] ⟨false, false, true⟩ =
      (str "d", none) := by
  refine ⟨⟨by decide, by decide, by decide⟩, ?_⟩
  rw [(plain_precedence_amended (str "x") (str "lit") [] [(str "x", str "d")]
    ⟨false, false, true⟩ (by decide) (by decide) (by decide)).1]
  decide

/-! ## Claim C8: dynamic import paths resolve from call-time variables only -/

/-- Store for the dynamic-import scenario: the root template carries a
front-matter default for the style variable pointing at the existing
casual style, and imports a path containing a nested style placeholder;
both style targets exist. -/
def dynStore : Store :=
  [ (str "root/main.md",
      ⟨0, str "# default.style: casual\n\x7b\x7b@styles/\x7b\x7bstyle\x7d\x7d\x7d\x7d"⟩),
    (str "root/styles/formal.md", ⟨0, str "FORMAL"⟩),
    (str "root/styles/casual.md", ⟨0, str "CASUAL"⟩) ]

/-- C8.  Nested placeholders inside an import path are resolved from the
call-time variable map only, and an unresolved nested placeholder stays as
literal text in the path.  First: for every call-time value of style, the
path resolver rewrites the dynamic path to that value.  Second: with no
call-time binding the path keeps the literal placeholder text.  The
remaining conjuncts run the full render against a root template whose
front matter defaults style to the existing casual template: a call-time
style formal inlines the formal document (the default is never consulted
for the path, although it is parsed into the metadata); with no call-time
value, strict mode fails to load exactly the literal-placeholder path, and
lenient mode keeps the import expression -- the casual default is never
used for import resolution because imports are expanded before defaults
are merged. -/
theorem dynamic_import_call_vars_only :
    (∀ sv : Str, resolveDynamicPath [(str "style", sv)] (str "styles/\x7b\x7bstyle\x7d\x7d") =
      str "styles/" ++ sv) ∧
    (resolveDynamicPath [] (str "styles/\x7b\x7bstyle\x7d\x7d") =
      str "styles/\x7b\x7bstyle\x7d\x7d") ∧
    ((generateInternal dynStore cfgRoot none (str "main") [(str "style", str "formal")]
        lenientOpts).1 =
      .ok (str "FORMAL",
        [(str "defaults", .strMap [(str "style", str "casual")])])) ∧
    ((generateInternal dynStore cfgRoot none (str "main") [] strictOpts).1 =
      .error (.imp ⟨str "styles/\x7b\x7bstyle\x7d\x7d.md", str "main.md",
        .load ⟨str "\x7b\x7bstyle\x7d\x7d.md", str "root/styles/\x7b\x7bstyle\x7d\x7d.md"⟩⟩)) ∧
    ((generateInternal dynStore cfgRoot none (str "main") [] lenientOpts).1 =
      .ok (str "\x7b\x7b@styles/\x7b\x7bstyle\x7d\x7d\x7d\x7d",
        [(str "defaults", .strMap [(str "style", str "casual")])])) := by
  refine ⟨?_, rfl, rfl, rfl, rfl⟩
  intro sv
  show str "styles/" ++ (sv ++ []) = str "styles/" ++ sv
  rw [List.append_nil]

end EchoTpl
